import Mathlib

/-
Verification of the arithmetic-expression validator
(source: "Проверка выражений.c", function isValidExpression).

The validator is a single left-to-right scan over the characters of the
input with a two-state finite automaton (STATE_EXPECT_OPERAND /
STATE_EXPECT_OPERATOR) and an integer parenthesis-balance counter.
Strings are modelled as List Char; the C character classification
functions isspace / isdigit / islower are modelled by their ASCII
behaviour on Char codepoints.
-/

set_option maxHeartbeats 1000000

/-- The two states of the finite automaton: `STATE_EXPECT_OPERAND` and
`STATE_EXPECT_OPERATOR` in the C source. -/
inductive State where
  | expectOperand
  | expectOperator
deriving DecidableEq, Repr

/-- ASCII model of C `isspace`: space (32) and the control characters
9..13 (tab, newline, vertical tab, form feed, carriage return). -/
def cIsSpace (c : Char) : Bool := c.toNat = 32 || (9 ≤ c.toNat && c.toNat ≤ 13)

/-- ASCII model of C `isdigit`: codepoints 48..57. -/
def cIsDigit (c : Char) : Bool := 48 ≤ c.toNat && c.toNat ≤ 57

/-- ASCII model of C `islower`: codepoints 97..122. -/
def cIsLower (c : Char) : Bool := 97 ≤ c.toNat && c.toNat ≤ 122

/-- Membership of a character in the C string literal "+-*/%", as tested
by `strchr("+-*/%", current_char)` in the STATE_EXPECT_OPERATOR branch. -/
def isOpChar (c : Char) : Bool := c = '+' || c = '-' || c = '*' || c = '/' || c = '%'

theorem length_dropWhile_le (p : Char → Bool) (l : List Char) :
    (l.dropWhile p).length ≤ l.length := by
  induction l with
  | nil => simp [List.dropWhile]
  | cons a l ih =>
    rw [List.dropWhile]
    cases p a with
    | true => exact Nat.le_trans ih (Nat.le_succ _)
    | false => simp

/-- The scanning loop of `isValidExpression` together with its final
acceptance check.  `scanExpr st bal l` continues the scan from state `st`
with parenthesis balance `bal` on the remaining characters `l`:

* whitespace characters are skipped;
* in STATE_EXPECT_OPERAND a digit consumes the whole maximal run of
  immediately following digits (the inner `while (i + 1 < len &&
  isdigit(expr[i+1])) i++;` loop, modelled by `List.dropWhile`) and moves
  to STATE_EXPECT_OPERATOR; a lowercase letter moves to
  STATE_EXPECT_OPERATOR; an opening parenthesis increments the balance and
  stays in STATE_EXPECT_OPERAND; a unary sign stays in
  STATE_EXPECT_OPERAND; anything else returns FALSE;
* in STATE_EXPECT_OPERATOR a character of "+-*/%" moves to
  STATE_EXPECT_OPERAND; a closing parenthesis decrements the balance and
  stays in STATE_EXPECT_OPERATOR; anything else returns FALSE;
* after each processed character, a negative balance returns FALSE
  immediately;
* at the end of the input the string is accepted iff the balance is zero
  and the state is STATE_EXPECT_OPERATOR. -/
def scanExpr : State → Int → List Char → Bool
  | st, bal, [] => decide (bal = 0) && decide (st = State.expectOperator)
  | st, bal, c :: cs =>
    if cIsSpace c then scanExpr st bal cs
    else
      match st with
      | State.expectOperand =>
        if cIsDigit c then
          if bal < 0 then false else scanExpr State.expectOperator bal (cs.dropWhile cIsDigit)
        else if cIsLower c then
          if bal < 0 then false else scanExpr State.expectOperator bal cs
        else if c = '(' then
          if bal + 1 < 0 then false else scanExpr State.expectOperand (bal + 1) cs
        else if c = '+' || c = '-' then
          if bal < 0 then false else scanExpr State.expectOperand bal cs
        else false
      | State.expectOperator =>
        if isOpChar c then
          if bal < 0 then false else scanExpr State.expectOperand bal cs
        else if c = ')' then
          if bal - 1 < 0 then false else scanExpr State.expectOperator (bal - 1) cs
        else false
termination_by _ _ l => l.length
decreasing_by
  all_goals simp_wf
  · exact Nat.lt_succ_of_le (length_dropWhile_le _ _)

/-- The C function `isValidExpression`: run the scan from the initial
state STATE_EXPECT_OPERAND with balance 0. -/
def isValidExpression (expr : List Char) : Bool :=
  scanExpr State.expectOperand 0 expr

/-- The same scanning loop viewed as a partial state transformer: it
returns the state and balance reached after the scan, or `none` when the
loop returns FALSE early (bad character for the current state, or negative
balance).  This drops the final acceptance check of `scanExpr`, so that
the acceptance condition "balance = 0 and state = STATE_EXPECT_OPERATOR
after the scan" can be stated separately. -/
def scanStates : State → Int → List Char → Option (State × Int)
  | st, bal, [] => some (st, bal)
  | st, bal, c :: cs =>
    if cIsSpace c then scanStates st bal cs
    else
      match st with
      | State.expectOperand =>
        if cIsDigit c then
          if bal < 0 then none else scanStates State.expectOperator bal (cs.dropWhile cIsDigit)
        else if cIsLower c then
          if bal < 0 then none else scanStates State.expectOperator bal cs
        else if c = '(' then
          if bal + 1 < 0 then none else scanStates State.expectOperand (bal + 1) cs
        else if c = '+' || c = '-' then
          if bal < 0 then none else scanStates State.expectOperand bal cs
        else none
      | State.expectOperator =>
        if isOpChar c then
          if bal < 0 then none else scanStates State.expectOperand bal cs
        else if c = ')' then
          if bal - 1 < 0 then none else scanStates State.expectOperator (bal - 1) cs
        else none
termination_by _ _ l => l.length
decreasing_by
  all_goals simp_wf
  · exact Nat.lt_succ_of_le (length_dropWhile_le _ _)

/-- The final acceptance check of `isValidExpression` applied to the
outcome of the scanning loop: an early FALSE (`none`) is rejected, and a
completed scan is accepted iff the balance is zero and the state is
STATE_EXPECT_OPERATOR. -/
def accepts : Option (State × Int) → Bool
  | none => false
  | some (st, bal) => decide (bal = 0) && decide (st = State.expectOperator)

/-- Running parenthesis balance of a character list: number of opening
minus number of closing parentheses. -/
def parenBal (l : List Char) : Int := (l.count '(' : Int) - (l.count ')' : Int)

theorem isOpChar_cases {c : Char} (h : isOpChar c = true) :
    c = '+' ∨ c = '-' ∨ c = '*' ∨ c = '/' ∨ c = '%' := by
  simpa [isOpChar, Bool.or_eq_true, decide_eq_true_eq, or_assoc] using h

theorem toNat_of_digit {c : Char} (h : cIsDigit c = true) :
    48 ≤ c.toNat ∧ c.toNat ≤ 57 := by
  simpa [cIsDigit] using h

theorem toNat_of_lower {c : Char} (h : cIsLower c = true) :
    97 ≤ c.toNat ∧ c.toNat ≤ 122 := by
  simpa [cIsLower] using h

theorem not_space_of_digit {c : Char} (h : cIsDigit c = true) : cIsSpace c = false := by
  have h2 := toNat_of_digit h
  simp [cIsSpace]
  omega

theorem not_space_of_lower {c : Char} (h : cIsLower c = true) : cIsSpace c = false := by
  have h2 := toNat_of_lower h
  simp [cIsSpace]
  omega

theorem not_digit_of_lower {c : Char} (h : cIsLower c = true) : cIsDigit c = false := by
  have h2 := toNat_of_lower h
  simp [cIsDigit]
  omega

theorem not_opChar_of_digit {c : Char} (h : cIsDigit c = true) : isOpChar c = false := by
  cases hop : isOpChar c
  · rfl
  · rcases isOpChar_cases hop with rfl | rfl | rfl | rfl | rfl <;> simp [cIsDigit] at h

theorem not_opChar_of_lower {c : Char} (h : cIsLower c = true) : isOpChar c = false := by
  cases hop : isOpChar c
  · rfl
  · rcases isOpChar_cases hop with rfl | rfl | rfl | rfl | rfl <;> simp [cIsLower] at h

theorem digit_ne_close {c : Char} (h : cIsDigit c = true) : (c = ')') = False := by
  simp only [eq_iff_iff, iff_false]
  intro hc
  subst hc
  simp [cIsDigit] at h

theorem lower_ne_close {c : Char} (h : cIsLower c = true) : (c = ')') = False := by
  simp only [eq_iff_iff, iff_false]
  intro hc
  subst hc
  simp [cIsLower] at h

theorem dropWhile_append_of_head (p : Char → Bool) (l q : List Char)
    (hq : ∀ c, q.head? = some c → p c = false) :
    (l ++ q).dropWhile p = l.dropWhile p ++ q := by
  induction l with
  | nil =>
    simp only [List.nil_append]
    cases q with
    | nil => simp
    | cons c cs =>
      rw [List.dropWhile_cons_of_neg (by simp [hq c rfl])]
      simp
  | cons a l ih =>
    cases hpa : p a with
    | true =>
      rw [List.cons_append, List.dropWhile_cons_of_pos (by simp [hpa]),
        List.dropWhile_cons_of_pos (by simp [hpa])]
      exact ih
    | false =>
      rw [List.cons_append, List.dropWhile_cons_of_neg (by simp [hpa]),
        List.dropWhile_cons_of_neg (by simp [hpa])]
      simp

theorem dropWhile_eq_nil_of_all (p : Char → Bool) (l : List Char)
    (h : ∀ c ∈ l, p c = true) : l.dropWhile p = [] := by
  induction l with
  | nil => simp
  | cons a l ih =>
    rw [List.dropWhile_cons_of_pos (by simp [h a (by simp)])]
    exact ih fun c hc => h c (by simp [hc])


theorem scanExpr_eq_states (st : State) (bal : Int) (l : List Char) :
    scanExpr st bal l = accepts (scanStates st bal l) := by
  induction st, bal, l using scanStates.induct with
  | case1 st bal =>
    rw [scanExpr.eq_def, scanStates.eq_def]
    simp [accepts]
  | case2 st bal c cs hsp ih =>
    rw [scanExpr.eq_def, scanStates.eq_def]
    simp only [hsp, if_true]
    exact ih
  | case3 bal c cs hsp hd hb =>
    rw [scanExpr.eq_def, scanStates.eq_def]
    simp [hsp, hd, hb, accepts]
  | case4 bal c cs hsp hd hb ih =>
    rw [scanExpr.eq_def, scanStates.eq_def]
    simp only [hsp, hd, hb, if_true, if_false]
    exact ih
  | case5 bal c cs hsp hd hl hb =>
    rw [scanExpr.eq_def, scanStates.eq_def]
    simp [hsp, hd, hl, hb, accepts]
  | case6 bal c cs hsp hd hl hb ih =>
    rw [scanExpr.eq_def, scanStates.eq_def]
    simp only [hsp, hd, hl, hb, if_true, if_false]
    exact ih
  | case7 bal cs hb hsp hd hl =>
    rw [scanExpr.eq_def, scanStates.eq_def]
    simp [hsp, hd, hl, hb, accepts]
  | case8 bal cs hb hsp hd hl ih =>
    rw [scanExpr.eq_def, scanStates.eq_def]
    simp only [hsp, hd, hl, hb, if_true, if_false]
    exact ih
  | case9 bal c cs hsp hd hl hpar hsign hb =>
    rw [scanExpr.eq_def, scanStates.eq_def]
    simp [hsp, hd, hl, hpar, hsign, hb, accepts]
  | case10 bal c cs hsp hd hl hpar hsign hb ih =>
    rw [scanExpr.eq_def, scanStates.eq_def]
    simp only [hsp, hd, hl, hpar, hsign, hb, if_true, if_false]
    exact ih
  | case11 bal c cs hsp hd hl hpar hsign =>
    rw [scanExpr.eq_def, scanStates.eq_def]
    simp [hsp, hd, hl, hpar, hsign, accepts]
  | case12 bal c cs hsp hop hb =>
    rw [scanExpr.eq_def, scanStates.eq_def]
    simp [hsp, hop, hb, accepts]
  | case13 bal c cs hsp hop hb ih =>
    rw [scanExpr.eq_def, scanStates.eq_def]
    simp only [hsp, hop, hb, if_true, if_false]
    exact ih
  | case14 bal cs hb hsp hop =>
    rw [scanExpr.eq_def, scanStates.eq_def]
    simp [hsp, hop, hb, accepts]
  | case15 bal cs hb hsp hop ih =>
    rw [scanExpr.eq_def, scanStates.eq_def]
    simp only [hsp, hop, hb, if_true, if_false]
    exact ih
  | case16 bal c cs hsp hop hpar =>
    rw [scanExpr.eq_def, scanStates.eq_def]
    simp [hsp, hop, hpar, accepts]

theorem scanStates_nil (st : State) (bal : Int) : scanStates st bal [] = some (st, bal) := by
  rw [scanStates.eq_def]

theorem scanStates_ws_skip (ws : List Char) (st : State) (bal : Int) (l : List Char)
    (h : ∀ c ∈ ws, cIsSpace c = true) :
    scanStates st bal (ws ++ l) = scanStates st bal l := by
  induction ws with
  | nil => simp
  | cons a ws ih =>
    have ha := h a (by simp)
    rw [List.cons_append, scanStates.eq_def]
    simp only [ha, if_true]
    exact ih fun c hc => h c (by simp [hc])

theorem scanStates_append (st : State) (bal : Int) (p q : List Char)
    (hq : ∀ c, q.head? = some c → cIsDigit c = false) :
    scanStates st bal (p ++ q) =
      (scanStates st bal p).bind fun r => scanStates r.1 r.2 q := by
  induction st, bal, p using scanStates.induct with
  | case1 st bal =>
    rw [List.nil_append, scanStates_nil]
    simp [Option.bind]
  | case2 st bal c cs hsp ih =>
    rw [List.cons_append, scanStates.eq_def]
    conv_rhs => rw [scanStates.eq_def]
    simp only [hsp, if_true]
    exact ih
  | case3 bal c cs hsp hd hb =>
    rw [List.cons_append, scanStates.eq_def]
    conv_rhs => rw [scanStates.eq_def]
    simp [hsp, hd, hb, Option.bind]
  | case4 bal c cs hsp hd hb ih =>
    rw [List.cons_append, scanStates.eq_def]
    conv_rhs => rw [scanStates.eq_def]
    simp only [hsp, hd, hb, if_true, if_false]
    rw [dropWhile_append_of_head cIsDigit cs q hq]
    exact ih
  | case5 bal c cs hsp hd hl hb =>
    rw [List.cons_append, scanStates.eq_def]
    conv_rhs => rw [scanStates.eq_def]
    simp [hsp, hd, hl, hb, Option.bind]
  | case6 bal c cs hsp hd hl hb ih =>
    rw [List.cons_append, scanStates.eq_def]
    conv_rhs => rw [scanStates.eq_def]
    simp only [hsp, hd, hl, hb, if_true, if_false]
    exact ih
  | case7 bal cs hb hsp hd hl =>
    rw [List.cons_append, scanStates.eq_def]
    conv_rhs => rw [scanStates.eq_def]
    simp [hsp, hd, hl, hb, Option.bind]
  | case8 bal cs hb hsp hd hl ih =>
    rw [List.cons_append, scanStates.eq_def]
    conv_rhs => rw [scanStates.eq_def]
    simp only [hsp, hd, hl, hb, if_true, if_false]
    exact ih
  | case9 bal c cs hsp hd hl hpar hsign hb =>
    rw [List.cons_append, scanStates.eq_def]
    conv_rhs => rw [scanStates.eq_def]
    simp [hsp, hd, hl, hpar, hsign, hb, Option.bind]
  | case10 bal c cs hsp hd hl hpar hsign hb ih =>
    rw [List.cons_append, scanStates.eq_def]
    conv_rhs => rw [scanStates.eq_def]
    simp only [hsp, hd, hl, hpar, hsign, hb, if_true, if_false]
    exact ih
  | case11 bal c cs hsp hd hl hpar hsign =>
    rw [List.cons_append, scanStates.eq_def]
    conv_rhs => rw [scanStates.eq_def]
    simp [hsp, hd, hl, hpar, hsign, Option.bind]
  | case12 bal c cs hsp hop hb =>
    rw [List.cons_append, scanStates.eq_def]
    conv_rhs => rw [scanStates.eq_def]
    simp [hsp, hop, hb, Option.bind]
  | case13 bal c cs hsp hop hb ih =>
    rw [List.cons_append, scanStates.eq_def]
    conv_rhs => rw [scanStates.eq_def]
    simp only [hsp, hop, hb, if_true, if_false]
    exact ih
  | case14 bal cs hb hsp hop =>
    rw [List.cons_append, scanStates.eq_def]
    conv_rhs => rw [scanStates.eq_def]
    simp [hsp, hop, hb, Option.bind]
  | case15 bal cs hb hsp hop ih =>
    rw [List.cons_append, scanStates.eq_def]
    conv_rhs => rw [scanStates.eq_def]
    simp only [hsp, hop, hb, if_true, if_false]
    exact ih
  | case16 bal c cs hsp hop hpar =>
    rw [List.cons_append, scanStates.eq_def]
    conv_rhs => rw [scanStates.eq_def]
    simp [hsp, hop, hpar, Option.bind]

theorem parenBal_nil : parenBal [] = 0 := by simp [parenBal]

theorem parenBal_append (l₁ l₂ : List Char) :
    parenBal (l₁ ++ l₂) = parenBal l₁ + parenBal l₂ := by
  simp only [parenBal, List.count_append]
  push_cast
  ring

theorem parenBal_cons_open (l : List Char) : parenBal ('(' :: l) = 1 + parenBal l := by
  simp only [parenBal, List.count_cons]
  push_cast
  simp
  omega

theorem parenBal_cons_close (l : List Char) : parenBal (')' :: l) = parenBal l - 1 := by
  simp only [parenBal, List.count_cons]
  push_cast
  simp
  omega

theorem parenBal_cons_other {c : Char} (l : List Char) (h1 : ¬c = '(') (h2 : ¬c = ')') :
    parenBal (c :: l) = parenBal l := by
  simp only [parenBal, List.count_cons]
  push_cast
  simp [h1, h2]

theorem parenBal_of_no_paren (l : List Char) (h : ∀ c ∈ l, ¬c = '(' ∧ ¬c = ')') :
    parenBal l = 0 := by
  have h1 : l.count '(' = 0 := List.count_eq_zero.mpr fun hc => (h _ hc).1 rfl
  have h2 : l.count ')' = 0 := List.count_eq_zero.mpr fun hc => (h _ hc).2 rfl
  simp [parenBal, h1, h2]

theorem not_paren_of_space {c : Char} (h : cIsSpace c = true) : ¬c = '(' ∧ ¬c = ')' := by
  constructor <;> rintro rfl <;> simp [cIsSpace] at h

theorem not_paren_of_digit {c : Char} (h : cIsDigit c = true) : ¬c = '(' ∧ ¬c = ')' := by
  constructor <;> rintro rfl <;> simp [cIsDigit] at h

theorem not_paren_of_lower {c : Char} (h : cIsLower c = true) : ¬c = '(' ∧ ¬c = ')' := by
  constructor <;> rintro rfl <;> simp [cIsLower] at h

theorem not_paren_of_sign {c : Char}
    (h : (decide (c = '+') || decide (c = '-')) = true) : ¬c = '(' ∧ ¬c = ')' := by
  have h2 : c = '+' ∨ c = '-' := by simpa using h
  rcases h2 with rfl | rfl <;> exact ⟨by decide, by decide⟩

theorem not_paren_of_op {c : Char} (h : isOpChar c = true) : ¬c = '(' ∧ ¬c = ')' := by
  rcases isOpChar_cases h with rfl | rfl | rfl | rfl | rfl <;> exact ⟨by decide, by decide⟩

theorem prefix_cons_cases (p : List Char) (c : Char) (cs : List Char) (h : p <+: c :: cs) :
    p = [] ∨ ∃ q, p = c :: q ∧ q <+: cs := by
  cases p with
  | nil => exact Or.inl rfl
  | cons b q =>
    rw [List.cons_prefix_cons] at h
    exact Or.inr ⟨q, by rw [h.1], h.2⟩

theorem prefix_append_cases (p l₁ l₂ : List Char) (h : p <+: l₁ ++ l₂) :
    p <+: l₁ ∨ ∃ q, p = l₁ ++ q ∧ q <+: l₂ := by
  induction l₁ generalizing p with
  | nil => exact Or.inr ⟨p, rfl, by simpa using h⟩
  | cons a l₁ ih =>
    cases p with
    | nil => exact Or.inl ⟨a :: l₁, rfl⟩
    | cons b p₂ =>
      rw [List.cons_append, List.cons_prefix_cons] at h
      obtain ⟨rfl, h₂⟩ := h
      rcases ih p₂ h₂ with h1 | ⟨q, rfl, hq⟩
      · exact Or.inl (List.cons_prefix_cons.mpr ⟨rfl, h1⟩)
      · exact Or.inr ⟨q, rfl, hq⟩

theorem mem_of_isPrefix_of_mem {c : Char} {p l : List Char} (hp : p <+: l) (hc : c ∈ p) :
    c ∈ l := by
  obtain ⟨t, rfl⟩ := hp
  exact List.mem_append_left t hc

theorem scanExpr_balance (st : State) (bal : Int) (l : List Char) :
    0 ≤ bal → scanExpr st bal l = true →
    bal + parenBal l = 0 ∧ ∀ p, p <+: l → 0 ≤ bal + parenBal p := by
  induction st, bal, l using scanStates.induct with
  | case1 st bal =>
    intro hb hacc
    rw [scanExpr.eq_def] at hacc
    simp only [decide_eq_true_eq, Bool.and_eq_true] at hacc
    refine ⟨by simp [parenBal_nil, hacc.1], ?_⟩
    intro p hp
    obtain rfl : p = [] := by simpa using hp
    simpa [parenBal_nil] using hb
  | case2 st bal c cs hsp ih =>
    intro hb hacc
    rw [scanExpr.eq_def] at hacc
    simp only [hsp, if_true] at hacc
    obtain ⟨ht, hpre⟩ := ih hb hacc
    have hnp := not_paren_of_space hsp
    refine ⟨by rw [parenBal_cons_other _ hnp.1 hnp.2]; exact ht, ?_⟩
    intro p hp
    rcases prefix_cons_cases p c cs hp with rfl | ⟨q, rfl, hq⟩
    · simpa [parenBal_nil] using hb
    · rw [parenBal_cons_other _ hnp.1 hnp.2]
      exact hpre q hq
  | case3 bal c cs hsp hd hneg =>
    intro hb hacc
    rw [scanExpr.eq_def] at hacc
    simp [hsp, hd, hneg] at hacc
  | case4 bal c cs hsp hd hneg ih =>
    intro hb hacc
    rw [scanExpr.eq_def] at hacc
    simp only [hsp, hd, hneg, if_true, if_false, Bool.false_eq_true] at hacc
    obtain ⟨ht, hpre⟩ := ih hb hacc
    have hnp := not_paren_of_digit hd
    have hcs : cs.takeWhile cIsDigit ++ cs.dropWhile cIsDigit = cs :=
      List.takeWhile_append_dropWhile cIsDigit cs
    have htw0 : parenBal (cs.takeWhile cIsDigit) = 0 :=
      parenBal_of_no_paren _ fun x hx => not_paren_of_digit (List.mem_takeWhile_imp hx)
    constructor
    · rw [parenBal_cons_other _ hnp.1 hnp.2, ← hcs, parenBal_append, htw0]
      omega
    · intro p hp
      rcases prefix_cons_cases p c cs hp with rfl | ⟨q, rfl, hq⟩
      · simpa [parenBal_nil] using hb
      · rw [parenBal_cons_other _ hnp.1 hnp.2]
        rw [← hcs] at hq
        rcases prefix_append_cases q _ _ hq with hq1 | ⟨q₂, rfl, hq₂⟩
        · have hq0 : parenBal q = 0 :=
            parenBal_of_no_paren _ fun x hx =>
              not_paren_of_digit (List.mem_takeWhile_imp (mem_of_isPrefix_of_mem hq1 hx))
          omega
        · rw [parenBal_append, htw0]
          have := hpre q₂ hq₂
          omega
  | case5 bal c cs hsp hd hl hneg =>
    intro hb hacc
    rw [scanExpr.eq_def] at hacc
    simp [hsp, hd, hl, hneg] at hacc
  | case6 bal c cs hsp hd hl hneg ih =>
    intro hb hacc
    rw [scanExpr.eq_def] at hacc
    simp only [hsp, hd, hl, hneg, if_true, if_false, Bool.false_eq_true] at hacc
    obtain ⟨ht, hpre⟩ := ih hb hacc
    have hnp := not_paren_of_lower hl
    refine ⟨by rw [parenBal_cons_other _ hnp.1 hnp.2]; exact ht, ?_⟩
    intro p hp
    rcases prefix_cons_cases p c cs hp with rfl | ⟨q, rfl, hq⟩
    · simpa [parenBal_nil] using hb
    · rw [parenBal_cons_other _ hnp.1 hnp.2]
      exact hpre q hq
  | case7 bal cs hneg hsp hd hl =>
    intro hb hacc
    rw [scanExpr.eq_def] at hacc
    simp [hsp, hd, hl, hneg] at hacc
  | case8 bal cs hneg hsp hd hl ih =>
    intro hb hacc
    rw [scanExpr.eq_def] at hacc
    simp only [hsp, hd, hl, hneg, if_true, if_false, Bool.false_eq_true] at hacc
    obtain ⟨ht, hpre⟩ := ih (by omega) hacc
    constructor
    · rw [parenBal_cons_open]
      omega
    · intro p hp
      rcases prefix_cons_cases p _ cs hp with rfl | ⟨q, rfl, hq⟩
      · simpa [parenBal_nil] using hb
      · rw [parenBal_cons_open]
        have := hpre q hq
        omega
  | case9 bal c cs hsp hd hl hpar hsign hneg =>
    intro hb hacc
    rw [scanExpr.eq_def] at hacc
    simp [hsp, hd, hl, hpar, hsign, hneg] at hacc
  | case10 bal c cs hsp hd hl hpar hsign hneg ih =>
    intro hb hacc
    rw [scanExpr.eq_def] at hacc
    simp only [hsp, hd, hl, hpar, hsign, hneg, if_true, if_false, Bool.false_eq_true] at hacc
    obtain ⟨ht, hpre⟩ := ih hb hacc
    have hnp := not_paren_of_sign hsign
    refine ⟨by rw [parenBal_cons_other _ hnp.1 hnp.2]; exact ht, ?_⟩
    intro p hp
    rcases prefix_cons_cases p c cs hp with rfl | ⟨q, rfl, hq⟩
    · simpa [parenBal_nil] using hb
    · rw [parenBal_cons_other _ hnp.1 hnp.2]
      exact hpre q hq
  | case11 bal c cs hsp hd hl hpar hsign =>
    intro hb hacc
    rw [scanExpr.eq_def] at hacc
    simp [hsp, hd, hl, hpar, hsign] at hacc
  | case12 bal c cs hsp hop hneg =>
    intro hb hacc
    rw [scanExpr.eq_def] at hacc
    simp [hsp, hop, hneg] at hacc
  | case13 bal c cs hsp hop hneg ih =>
    intro hb hacc
    rw [scanExpr.eq_def] at hacc
    simp only [hsp, hop, hneg, if_true, if_false, Bool.false_eq_true] at hacc
    obtain ⟨ht, hpre⟩ := ih hb hacc
    have hnp := not_paren_of_op hop
    refine ⟨by rw [parenBal_cons_other _ hnp.1 hnp.2]; exact ht, ?_⟩
    intro p hp
    rcases prefix_cons_cases p c cs hp with rfl | ⟨q, rfl, hq⟩
    · simpa [parenBal_nil] using hb
    · rw [parenBal_cons_other _ hnp.1 hnp.2]
      exact hpre q hq
  | case14 bal cs hneg hsp hop =>
    intro hb hacc
    rw [scanExpr.eq_def] at hacc
    simp [hsp, hop, hneg] at hacc
  | case15 bal cs hneg hsp hop ih =>
    intro hb hacc
    rw [scanExpr.eq_def] at hacc
    simp only [hsp, hop, hneg, if_true, if_false, Bool.false_eq_true] at hacc
    obtain ⟨ht, hpre⟩ := ih (by omega) hacc
    constructor
    · rw [parenBal_cons_close]
      omega
    · intro p hp
      rcases prefix_cons_cases p _ cs hp with rfl | ⟨q, rfl, hq⟩
      · simpa [parenBal_nil] using hb
      · rw [parenBal_cons_close]
        have := hpre q hq
        omega
  | case16 bal c cs hsp hop hpar =>
    intro hb hacc
    rw [scanExpr.eq_def] at hacc
    simp [hsp, hop, hpar] at hacc

theorem accepts_eq_true_iff (r : Option (State × Int)) :
    accepts r = true ↔ r = some (State.expectOperator, 0) := by
  match r with
  | none => simp [accepts]
  | some (st, bal) =>
    cases st with
    | expectOperand => simp [accepts]
    | expectOperator => simp [accepts, eq_comm]

/-- C1: the validator accepts iff, after the left-to-right scan completes
without early rejection, the parenthesis balance equals 0 and the state is
STATE_EXPECT_OPERATOR; consequently every whitespace-only input (the empty
string included) yields false, "a+" is rejected and "a+1" is accepted. -/
theorem C1_accept_iff_final_state :
    (∀ expr : List Char,
      isValidExpression expr = true ↔
        scanStates State.expectOperand 0 expr = some (State.expectOperator, 0)) ∧
    (∀ expr : List Char, (∀ c ∈ expr, cIsSpace c = true) → isValidExpression expr = false) ∧
    isValidExpression "a+".data = false ∧
    isValidExpression "a+1".data = true := by
  refine ⟨?_, ?_, ?_, ?_⟩
  · intro expr
    rw [isValidExpression, scanExpr_eq_states]
    exact accepts_eq_true_iff _
  · intro expr hws
    rw [isValidExpression, scanExpr_eq_states]
    have h0 : scanStates State.expectOperand 0 expr = some (State.expectOperand, 0) := by
      have h1 := scanStates_ws_skip expr State.expectOperand 0 [] hws
      rw [List.append_nil] at h1
      rw [h1, scanStates_nil]
    rw [h0]
    simp [accepts]
  · simp [isValidExpression, scanExpr, cIsSpace, cIsDigit, cIsLower, isOpChar]
  · simp [isValidExpression, scanExpr, cIsSpace, cIsDigit, cIsLower, isOpChar, List.dropWhile]

theorem C1_accept_iff_final_state_witness :
    isValidExpression "  ".data = false :=
  C1_accept_iff_final_state.2.1 "  ".data (by decide)

/-- C2: every accepted string has as many opening as closing parentheses,
and in every prefix the number of opening parentheses is at least the
number of closing ones (the running balance never goes negative and ends
at exactly zero). -/
theorem C2_balanced_parens (expr : List Char) (h : isValidExpression expr = true) :
    expr.count '(' = expr.count ')' ∧
    ∀ p, p <+: expr → p.count ')' ≤ p.count '(' := by
  obtain ⟨ht, hpre⟩ := scanExpr_balance State.expectOperand 0 expr le_rfl h
  constructor
  · simp only [zero_add] at ht
    simp only [parenBal] at ht
    omega
  · intro p hp
    have h2 := hpre p hp
    simp only [zero_add, parenBal] at h2
    omega

theorem C2_balanced_parens_witness :
    isValidExpression "(a)".data = true ∧
    "(a)".data.count '(' = "(a)".data.count ')' := by
  have h : isValidExpression "(a)".data = true := by
    simp [isValidExpression, scanExpr, cIsSpace, cIsDigit, cIsLower, isOpChar]
  exact ⟨h, (C2_balanced_parens "(a)".data h).1⟩

/-- C3: a digit, a lowercase letter or an opening parenthesis met in
state STATE_EXPECT_OPERATOR makes the validator return false immediately,
whatever the rest of the input is; in particular "7a" and "(a+b)(c-d)"
are rejected. -/
theorem C3_adjacent_operands_rejected :
    (∀ (bal : Int) (c : Char) (cs : List Char),
      cIsDigit c = true ∨ cIsLower c = true ∨ c = '(' →
      scanExpr State.expectOperator bal (c :: cs) = false) ∧
    isValidExpression "7a".data = false ∧
    isValidExpression "(a+b)(c-d)".data = false := by
  refine ⟨?_, ?_, ?_⟩
  · intro bal c cs hc
    rw [scanExpr.eq_def]
    rcases hc with hd | hl | rfl
    · simp [not_space_of_digit hd, not_opChar_of_digit hd, digit_ne_close hd]
    · simp [not_space_of_lower hl, not_opChar_of_lower hl, lower_ne_close hl]
    · simp [cIsSpace, isOpChar]
  · simp [isValidExpression, scanExpr, cIsSpace, cIsDigit, cIsLower, isOpChar]
  · simp [isValidExpression, scanExpr, cIsSpace, cIsDigit, cIsLower, isOpChar]

theorem C3_adjacent_operands_rejected_witness :
    scanExpr State.expectOperator 0 ('7' :: 'a' :: []) = false :=
  C3_adjacent_operands_rejected.1 0 '7' ('a' :: []) (Or.inl (by decide))

/-- C4: a plus or minus sign read in state STATE_EXPECT_OPERAND is a
unary sign that leaves the state at STATE_EXPECT_OPERAND (the scan on the
rest of the input is unchanged), so chained unary signs are accepted:
"--a" and "+-+a" yield true, and a binary operator immediately followed
by a unary sign is legal: "a++b" yields true. -/
theorem C4_unary_sign_keeps_state :
    (∀ (bal : Int) (c : Char) (cs : List Char), 0 ≤ bal → c = '+' ∨ c = '-' →
      scanExpr State.expectOperand bal (c :: cs) = scanExpr State.expectOperand bal cs) ∧
    isValidExpression "--a".data = true ∧
    isValidExpression "+-+a".data = true ∧
    isValidExpression "a++b".data = true := by
  refine ⟨?_, ?_, ?_, ?_⟩
  · intro bal c cs hb hc
    rw [scanExpr.eq_def]
    rcases hc with rfl | rfl <;>
      simp [cIsSpace, cIsDigit, cIsLower, not_lt.mpr hb]
  · simp [isValidExpression, scanExpr, cIsSpace, cIsDigit, cIsLower, isOpChar]
  · simp [isValidExpression, scanExpr, cIsSpace, cIsDigit, cIsLower, isOpChar]
  · simp [isValidExpression, scanExpr, cIsSpace, cIsDigit, cIsLower, isOpChar]

theorem C4_unary_sign_keeps_state_witness :
    scanExpr State.expectOperand 0 ('-' :: 'a' :: []) =
      scanExpr State.expectOperand 0 ('a' :: []) :=
  C4_unary_sign_keeps_state.1 0 '-' ('a' :: []) (by decide) (Or.inr rfl)

/-- C5: a maximal run of digits met in state STATE_EXPECT_OPERAND is
consumed as one operand in a single transition to STATE_EXPECT_OPERATOR,
whatever the length of the run; in particular "123+45" is accepted. -/
theorem C5_digit_run_single_operand :
    (∀ (bal : Int) (ds rest : List Char), 0 ≤ bal → ds ≠ [] →
      (∀ c ∈ ds, cIsDigit c = true) →
      (∀ c, rest.head? = some c → cIsDigit c = false) →
      scanExpr State.expectOperand bal (ds ++ rest) =
        scanExpr State.expectOperator bal rest) ∧
    isValidExpression "123+45".data = true := by
  refine ⟨?_, ?_⟩
  · intro bal ds rest hb hne hds hrest
    cases ds with
    | nil => exact absurd rfl hne
    | cons d ds =>
      have hd : cIsDigit d = true := hds d (by simp)
      rw [List.cons_append, scanExpr.eq_def]
      simp only [not_space_of_digit hd, hd, if_true, if_false, Bool.false_eq_true,
        not_lt.mpr hb, ite_false]
      rw [dropWhile_append_of_head cIsDigit ds rest hrest,
        dropWhile_eq_nil_of_all cIsDigit ds fun c hc => hds c (by simp [hc]),
        List.nil_append]
  · simp [isValidExpression, scanExpr, cIsSpace, cIsDigit, cIsLower, isOpChar,
      List.dropWhile]

theorem C5_digit_run_single_operand_witness :
    scanExpr State.expectOperand 0 ('1' :: '2' :: '3' :: []) =
      scanExpr State.expectOperator 0 [] :=
  C5_digit_run_single_operand.1 0 ('1' :: '2' :: '3' :: []) [] (by decide) (by decide)
    (by decide) (by decide)

/-- C6: a closing parenthesis that would make the balance negative makes
the validator return false at that point, whatever the rest of the input
is; in particular "a)(b+c)", whose balance dips negative and later
recovers to zero, is rejected. -/
theorem C6_negative_balance_immediate :
    (∀ (bal : Int) (cs : List Char), bal - 1 < 0 →
      scanExpr State.expectOperator bal (')' :: cs) = false) ∧
    isValidExpression "a)(b+c)".data = false := by
  refine ⟨?_, ?_⟩
  · intro bal cs hneg
    rw [scanExpr.eq_def]
    simp [cIsSpace, isOpChar, hneg]
  · simp [isValidExpression, scanExpr, cIsSpace, cIsDigit, cIsLower, isOpChar]

theorem C6_negative_balance_immediate_witness :
    scanExpr State.expectOperator 0 (')' :: '(' :: []) = false :=
  C6_negative_balance_immediate.1 0 ('(' :: []) (by decide)

/-- C7: the validator is total: for every input string it returns a
boolean verdict, true or false. -/
theorem C7_validator_total (expr : List Char) :
    isValidExpression expr = true ∨ isValidExpression expr = false := by
  cases isValidExpression expr
  · exact Or.inr rfl
  · exact Or.inl rfl

/-- C8: whitespace terminates a digit run even though whitespace is
skipped: "1 2" is rejected while "12" (the same string with the space
removed) is accepted, yet "12 + 3" is accepted. -/
theorem C8_whitespace_splits_digit_run :
    isValidExpression "1 2".data = false ∧
    isValidExpression "12".data = true ∧
    "1 2".data.filter (fun c => !cIsSpace c) = "12".data ∧
    isValidExpression "12 + 3".data = true := by
  refine ⟨?_, ?_, ?_, ?_⟩
  · simp [isValidExpression, scanExpr, cIsSpace, cIsDigit, cIsLower, isOpChar,
      List.dropWhile]
  · simp [isValidExpression, scanExpr, cIsSpace, cIsDigit, cIsLower, isOpChar,
      List.dropWhile]
  · decide
  · simp [isValidExpression, scanExpr, cIsSpace, cIsDigit, cIsLower, isOpChar,
      List.dropWhile]

theorem scanStates_open_then_close (st : State) (bal : Int) (ws rest : List Char)
    (hws : ∀ c ∈ ws, cIsSpace c = true) :
    scanStates st bal ('(' :: (ws ++ ')' :: rest)) = none := by
  rw [scanStates.eq_def]
  cases st with
  | expectOperand =>
    by_cases hb : bal + 1 < 0
    · simp [cIsSpace, cIsDigit, cIsLower, hb]
    · have h2 : scanStates State.expectOperand (bal + 1) (ws ++ ')' :: rest) =
          scanStates State.expectOperand (bal + 1) (')' :: rest) :=
        scanStates_ws_skip ws _ _ _ hws
      simp only [h2]
      simp [cIsSpace, cIsDigit, cIsLower, hb]
      rw [scanStates.eq_def]
      simp [cIsSpace, cIsDigit, cIsLower]
  | expectOperator =>
    simp [cIsSpace, isOpChar]

/-- C9: empty parentheses are rejected: whenever a closing parenthesis is
the first non-whitespace character after an opening parenthesis, the
whole input is rejected, because after the opening parenthesis the state
is still STATE_EXPECT_OPERAND and a closing parenthesis is not an
accepted token in that state. -/
theorem C9_empty_parens_rejected (pre ws rest : List Char)
    (hws : ∀ c ∈ ws, cIsSpace c = true) :
    isValidExpression (pre ++ '(' :: (ws ++ ')' :: rest)) = false := by
  rw [isValidExpression, scanExpr_eq_states,
    scanStates_append _ _ _ _ (by rintro c ⟨rfl⟩; decide)]
  cases h : scanStates State.expectOperand 0 pre with
  | none => simp [accepts, Option.bind]
  | some r =>
    simp only [Option.bind]
    rw [scanStates_open_then_close r.1 r.2 ws rest hws]
    simp [accepts]

theorem C9_empty_parens_rejected_witness :
    isValidExpression ('(' :: ')' :: []) = false := by
  have h := C9_empty_parens_rejected [] [] [] (by simp)
  simpa using h

/-- C10: a bare operand is a valid expression: a single lowercase letter
or a non-empty run of digits, optionally preceded by any chain of unary
plus or minus signs, is accepted. -/
theorem C10_bare_operand_accepted (signs core : List Char)
    (hsigns : ∀ c ∈ signs, c = '+' ∨ c = '-')
    (hcore : (∃ c, core = [c] ∧ cIsLower c = true) ∨
      (core ≠ [] ∧ ∀ c ∈ core, cIsDigit c = true)) :
    isValidExpression (signs ++ core) = true := by
  rw [isValidExpression]
  have hc2 : scanExpr State.expectOperand 0 core = true := by
    rcases hcore with ⟨c, rfl, hl⟩ | ⟨hne, hds⟩
    · rw [scanExpr.eq_def]
      simp only [not_space_of_lower hl, not_digit_of_lower hl, hl, if_true, if_false,
        Bool.false_eq_true]
      rw [if_neg (by decide), scanExpr.eq_def]
      simp
    · cases core with
      | nil => exact absurd rfl hne
      | cons d ds =>
        have hd := hds d (by simp)
        rw [scanExpr.eq_def]
        simp only [not_space_of_digit hd, hd, if_true, if_false, Bool.false_eq_true]
        rw [if_neg (by decide),
          dropWhile_eq_nil_of_all cIsDigit ds fun c hc => hds c (by simp [hc]),
          scanExpr.eq_def]
        simp
  revert hsigns
  induction signs with
  | nil =>
    intro _
    simpa using hc2
  | cons s signs ih =>
    intro hsigns
    have hs := hsigns s (by simp)
    rcases hs with rfl | rfl <;>
    · rw [List.cons_append, scanExpr.eq_def]
      simp [cIsSpace, cIsDigit, cIsLower]
      exact ih fun c hc => hsigns c (by simp [hc])

theorem C10_bare_operand_accepted_witness :
    isValidExpression ('-' :: '+' :: '7' :: []) = true := by
  have h := C10_bare_operand_accepted ('-' :: '+' :: []) ('7' :: [])
    (by decide) (Or.inr ⟨by decide, by decide⟩)
  simpa using h
